import Mathlib

/-!
Verification development for the year-partitioned market-data store and the
feature-derivation engine of the `aws-services` repository.

The Python sources embedded here are:
* `app-runner-trading-service/app/main.py`: `_merge_records`, `_split_by_year`,
  `_update_manifest`, the incremental branch of `get_daily`, and the
  store step of `refresh`;
* `trading_data_engine/main.py`: `_compute_rsi`, `_compute_macd`,
  `_compute_features` (rolling means, trend regression, signal logic) and the
  merge step of `daily_incremental_update_job`.

Modelling conventions:
* A JSON bar record is modelled by `Rec`: an optional `date` key (absent keys
  occur in the sources and are skipped by merge/split) plus one representative
  numeric payload field `close`; record equality is whole-record equality,
  as in Python.
* Python compares date strings lexicographically by code point.  That order is
  embedded as the executable comparator `codeLe` on `String.data`, so that the
  kernel can evaluate concrete comparisons.
* Python's stable `list.sort(key=...)` is embedded as `List.insertionSort`,
  which is stable and agrees with any stable sort on the same total preorder.
* Python `dict` preserves insertion order: updating an existing key keeps its
  position, a new key is appended.  This is embedded as association lists with
  `dictUpsert`.
* Float arithmetic is embedded as exact `ℚ` arithmetic.  The IEEE non-finite
  results that the sources rely on are made explicit: a pandas value that is
  NaN (and hence fails `pd.notnull`) is `none`, and the one place where a
  positive/zero division produces `+inf` (`rs` in `_compute_rsi`) is folded
  through `100 - 100/(1+inf) = 100` exactly as IEEE evaluates it.
-/

/-- Lexicographic (by code point) comparison of character lists, the order
Python uses on `str`.  `codeLe a b` decides `a <= b`. -/
def codeLe : List Char → List Char → Bool
  | [], _ => true
  | _ :: _, [] => false
  | a :: as, b :: bs =>
    if a.toNat < b.toNat then true
    else if b.toNat < a.toNat then false
    else codeLe as bs

/-- A stored bar record: the optional "date" JSON key plus a representative
payload field (`close`).  Two records are equal when all fields agree, as for
Python dict equality. -/
structure Rec where
  date? : Option String
  close : Int
deriving DecidableEq, Repr

/-- The sort key used by `_merge_records`: `r.get("date", "")`. -/
def keyOf (r : Rec) : String := r.date?.getD ""

/-- The sort order of `merged.sort(key=lambda r: r.get("date", ""))`. -/
def keyLe (a b : Rec) : Prop := codeLe (keyOf a).data (keyOf b).data = true

instance decKeyLe : DecidableRel keyLe :=
  fun a b => decidable_of_iff (codeLe (keyOf a).data (keyOf b).data = true) Iff.rfl

/-- Python's stable sort by date key (`list.sort` is stable; `insertionSort`
is the stable sort on the same total preorder). -/
def sortByDate (l : List Rec) : List Rec := List.insertionSort keyLe l

/-- Python dict assignment `m[k] = v`: replace in place if the key is present
(association lists built by `dictUpsert` have distinct keys, so the first
occurrence is the only one), append otherwise. -/
def dictUpsert {κ α : Type} [DecidableEq κ] (k : κ) (v : α) :
    List (κ × α) → List (κ × α)
  | [] => [(k, v)]
  | p :: ps => if p.1 = k then (k, v) :: ps else p :: dictUpsert k v ps

/-- One step of building the by-date dict: records without a "date" key are
skipped (`for r in incoming: if "date" in r: by_date[r["date"]] = r`). -/
def stepRec (m : List (String × Rec)) (r : Rec) : List (String × Rec) :=
  match r.date? with
  | some d => dictUpsert d r m
  | none => m

/-- The dict comprehension `{r["date"]: r for r in rs if "date" in r}`. -/
def byDate (rs : List Rec) : List (String × Rec) := rs.foldl stepRec []

/-- `_merge_records(existing, incoming)` from
`app-runner-trading-service/app/main.py`: build the by-date dict from
`existing`, overwrite/insert each dated incoming record, then emit the values
sorted (stably) by date key. -/
def mergeRecords (existing incoming : List Rec) : List Rec :=
  sortByDate ((incoming.foldl stepRec (byDate existing)).map Prod.snd)

/-- The last record of `rs` carrying the date `k` (the value the by-date dict
ends up holding at key `k`). -/
def lastAt (rs : List Rec) (k : String) : Option Rec :=
  match rs with
  | [] => none
  | r :: rest =>
    match lastAt rest k with
    | some v => some v
    | none => if r.date? = some k then some r else none

/-- Association-list lookup (first occurrence wins, as for Python dicts with
distinct keys). -/
def alookup {κ α : Type} [DecidableEq κ] (m : List (κ × α)) (k : κ) : Option α :=
  match m with
  | [] => none
  | p :: ps => if p.1 = k then some p.2 else alookup ps k

/-- `datetime.fromisoformat(s).year` for a well-formed zero-padded ISO date
string: the numeric value of the first four characters. -/
def yearOf (s : String) : Nat :=
  (s.data.take 4).foldl (fun acc c => acc * 10 + (c.toNat - 48)) 0

/-- `out.setdefault(y, []).append(r)`: append `r` to the group keyed `y`,
creating the group at the end on first sight of `y`. -/
def appendGroup (y : Nat) (r : Rec) :
    List (Nat × List Rec) → List (Nat × List Rec)
  | [] => [(y, [r])]
  | p :: ps => if p.1 = y then (p.1, p.2 ++ [r]) :: ps else p :: appendGroup y r ps

/-- One loop iteration of `_split_by_year`: records without a "date" key are
skipped (`if "date" not in r: continue`). -/
def stepGroup (m : List (Nat × List Rec)) (r : Rec) : List (Nat × List Rec) :=
  match r.date? with
  | none => m
  | some d => appendGroup (yearOf d) r m

/-- `_split_by_year(records)`: group dated records by the calendar year of
their date (records without a "date" key are skipped), then sort each group
by date. -/
def splitByYear (records : List Rec) : List (Nat × List Rec) :=
  (records.foldl stepGroup []).map (fun p => (p.1, sortByDate p.2))

/-! ### Manifest (`_update_manifest`)

The manifest's `symbol` and `updatedAt` fields are identity/timestamp data
with no invariant claimed about them and are not modelled.  Python keys
`latestDateByYear` by `str(year)`; since `str` is injective on years the dict
is keyed here directly by the year. -/

structure Manifest where
  years : List Nat
  latestDateByYear : List (Nat × Option String)
  latestDate : Option String
deriving DecidableEq, Repr

/-- The manifest of a symbol never written: `_get_s3_json(key) or {}`. -/
def emptyManifest : Manifest := ⟨[], [], none⟩

/-- One iteration of the maximum-tracking loop of `_update_manifest`:
`if v and (latest_date is None or v > latest_date): latest_date = v`.
A `none` value or the empty string is falsy and skipped; `v > latest` is the
negation of `v <= latest` for the total string order. -/
def tmStep (acc ov : Option String) : Option String :=
  match ov with
  | none => acc
  | some v =>
    if v = "" then acc
    else
      match acc with
      | none => some v
      | some l => if codeLe v.data l.data then some l else some v

/-- The whole loop `for v in latest_by_year.values(): ...` starting from
`latest_date = None`. -/
def truthyMax (vals : List (Option String)) : Option String :=
  vals.foldl tmStep none

/-- `sorted(years)` for the set union `set(years) | {year}`. -/
def sortedYears (l : List Nat) : List Nat :=
  List.insertionSort (· ≤ ·) l.dedup

/-- `_update_manifest(symbol, year, payload)` acting on the modelled manifest
state.  `data` is `payload["data"]`; when it is non-empty the entry for the
year is set to `data[-1].get("date")`, and `latestDate` is recomputed from
all stored values. -/
def applyUpdate (m : Manifest) (year : Nat) (data : List Rec) : Manifest :=
  let years1 := sortedYears (year :: m.years)
  let lby1 :=
    match data.getLast? with
    | some r => dictUpsert year r.date? m.latestDateByYear
    | none => m.latestDateByYear
  { years := years1
    latestDateByYear := lby1
    latestDate := truthyMax (lby1.map Prod.snd) }

/-- A sequence of manifest updates applied from the never-written state. -/
def runUpdates (updates : List (Nat × List Rec)) : Manifest :=
  updates.foldl (fun m u => applyUpdate m u.1 u.2) emptyManifest

/-! ### Engine-side incremental merge (`daily_incremental_update_job`)

The engine stores one DataFrame per ticker, indexed by date.  A row is a
(date, close) pair; the merge step concatenates existing and freshly fetched
rows, sorts by index, and drops duplicate dates keeping the last
(`combined_df[~combined_df.index.duplicated(keep='last')]`). -/

structure IdxRow where
  idxDate : String
  close : ℚ
deriving DecidableEq

def idxLe (a b : IdxRow) : Prop := codeLe a.idxDate.data b.idxDate.data = true

instance decIdxLe : DecidableRel idxLe :=
  fun a b => decidable_of_iff (codeLe a.idxDate.data b.idxDate.data = true) Iff.rfl

/-- `combined_df.sort_index()` (pandas sort is stable). -/
def sortIdx (l : List IdxRow) : List IdxRow := List.insertionSort idxLe l

/-- `df[~df.index.duplicated(keep='last')]`: keep a row only when no later row
shares its date. -/
def dedupKeepLast : List IdxRow → List IdxRow
  | [] => []
  | x :: xs =>
    if xs.any (fun y => y.idxDate == x.idxDate) then dedupKeepLast xs
    else x :: dedupKeepLast xs

/-- The stored series after `daily_incremental_update_job` runs with an
already-loaded `existing` series and fetch result `latest`: an empty fetch
logs a warning and returns before `_save_historical_data_to_storage`, so the
stored state is unchanged; otherwise concat, sort by date, dedup keeping the
last occurrence, and save. -/
def dailyIncrementalStored (existing latest : List IdxRow) : List IdxRow :=
  if latest.isEmpty then existing
  else dedupKeepLast (sortIdx (existing ++ latest))

/-- The partition data stored by the incremental branch of `get_daily` in
`app-runner-trading-service/app/main.py`: the merge and the S3 put are
executed unconditionally, even when the fetch result is empty. -/
def getDailyStoredData (cachedData fetched : List Rec) : List Rec :=
  mergeRecords cachedData fetched

/-- The partition data stored by the `if start or end:` branch of `refresh`:
with `incremental` the fetched rows are merged into the cache
(`cached_data or []` is the identity on lists), otherwise the fetched rows
replace the partition data verbatim. -/
def refreshStoredData (incremental : Bool) (cachedData fetched : List Rec) :
    List Rec :=
  if incremental then mergeRecords cachedData fetched else fetched

/-! ### Feature engine (`_compute_features`, `_compute_rsi`, `_compute_macd`)

The input DataFrame is modelled by its Close column, a list of optional
rationals (`none` is a NaN/missing close).  All derived series in the source
are causal (each value depends only on the prefix of valid closes up to its
row), and `_compute_features` reads them at `iloc[-1]` (and `iloc[-2]` for the
cross signal) through pandas index alignment: a row whose Close is NaN is not
in the valid-close index, so every aligned series value at that row is NaN. -/

/-- The last `n` elements of a list. -/
def lastN (n : Nat) (l : List ℚ) : List ℚ := l.drop (l.length - n)

/-- `series.diff()` without its leading NaN: consecutive differences. -/
def deltas (closes : List ℚ) : List ℚ :=
  List.zipWith (fun a b => b - a) closes closes.tail

/-- The value of `_compute_rsi(series, period)` at the last position of a
series of valid closes.  `rolling(window=period, min_periods=period)` over the
delta series (whose first entry is NaN) is defined at the last position iff at
least `period` genuine deltas exist.  `rs = avg_gain / avg_loss` in floats:
`0/0` is NaN (so the rsi is NaN, `pd.notnull` fails, hence `none`) and
`positive/0` is `+inf`, for which `100 - 100/(1+inf)` evaluates to exactly
`100`. -/
def rsiLast (period : Nat) (closes : List ℚ) : Option ℚ :=
  let ds := deltas closes
  if ds.length < period then none
  else
    let window := lastN period ds
    let avgGain := (window.map (fun d => max d 0)).sum / (period : ℚ)
    let avgLoss := (window.map (fun d => max (-d) 0)).sum / (period : ℚ)
    if avgLoss = 0 then
      if avgGain = 0 then none
      else some 100
    else some (100 - 100 / (1 + avgGain / avgLoss))

/-- The value of `close.rolling(window=k).mean()` at the last position:
defined (with the default `min_periods=window`) iff at least `k` values
exist. -/
def maLast (k : Nat) (closes : List ℚ) : Option ℚ :=
  if closes.length < k then none else some ((lastN k closes).sum / (k : ℚ))

/-- `series.ewm(span=span, adjust=False).mean()` continued from seed `acc`
with smoothing factor `a = 2/(span+1)`. -/
def emaFrom (a : ℚ) (acc : ℚ) : List ℚ → List ℚ
  | [] => []
  | x :: rest =>
    let y := (1 - a) * acc + a * x
    y :: emaFrom a y rest

/-- `series.ewm(span=span, adjust=False).mean()`: seeded by the first value. -/
def emaList (span : Nat) : List ℚ → List ℚ
  | [] => []
  | x :: rest => x :: emaFrom (2 / ((span : ℚ) + 1)) x rest

/-- The MACD line `EMA(12) - EMA(26)` of `_compute_macd`. -/
def macdLine (xs : List ℚ) : List ℚ :=
  List.zipWith (fun a b => a - b) (emaList 12 xs) (emaList 26 xs)

/-- The signal line `EMA(9)` of the MACD line. -/
def macdSignalLine (xs : List ℚ) : List ℚ := emaList 9 (macdLine xs)

/-- The MACD histogram `macd - signal`. -/
def macdHistLine (xs : List ℚ) : List ℚ :=
  List.zipWith (fun a b => a - b) (macdLine xs) (macdSignalLine xs)

/-- `close.pct_change() * 100` at the last position: defined iff a prior
close exists.  A zero prior close gives a non-finite float (inf or NaN),
modelled `none`; no verified claim touches that case. -/
def return1dLast (xs : List ℚ) : Option ℚ :=
  match xs.dropLast.getLast?, xs.getLast? with
  | some a, some b => if a = 0 then none else some ((b - a) / a * 100)
  | _, _ => none

/-- `(recent == recent.iloc[0]).all()`. -/
def allEqHead : List ℚ → Bool
  | [] => true
  | h :: t => t.all (fun y => y == h)

/-- The slope coefficient `np.polyfit(x, recent, 1)[0]` for `x = 0..n-1`:
the ordinary least-squares slope. -/
def olsSlope (ys : List ℚ) : ℚ :=
  let n : ℚ := (ys.length : ℚ)
  let xs : List ℚ := (List.range ys.length).map (fun i => (i : ℚ))
  let sx := xs.sum
  let sy := ys.sum
  let sxy := (List.zipWith (fun a b => a * b) xs ys).sum
  let sxx := (xs.map (fun x => x * x)).sum
  (n * sxy - sx * sy) / (n * sxx - sx * sx)

/-- The trend block of `_compute_features`: with fewer than 10 valid closes
the initial "unknown" survives; with 10 identical last closes the degenerate
regression is skipped and the trend is "flat"; otherwise the last-10 OLS slope
is classified with a 0.001 threshold.  (The `np.linalg.LinAlgError` handler is
unreachable: the all-identical guard is checked first.) -/
def computeTrend (closes : List ℚ) : String :=
  if closes.length < 10 then "unknown"
  else
    let recent := lastN 10 closes
    if allEqHead recent then "flat"
    else
      let slope := olsSlope recent
      if slope > 1 / 1000 then "up"
      else if slope < -(1 / 1000) then "down"
      else "flat"

/-- The value, at the row `back` positions from the end of the DataFrame, of a
causal series computed on the valid closes: `none` when that row's Close is
NaN (pandas index alignment), otherwise the series applied to the valid
closes up to and including that row. -/
def alignedAt (df : List (Option ℚ)) (back : Nat) (f : List ℚ → Option ℚ) :
    Option ℚ :=
  let pre := df.take (df.length - back)
  match pre.getLast? with
  | some (some _) => f (pre.filterMap id)
  | _ => none

/-- The golden/death-cross block: requires at least two rows and non-null
ma_50/ma_200 at both the previous and the current row, else "neutral". -/
def maSignal (df : List (Option ℚ)) : String :=
  if df.length < 2 then "neutral"
  else
    match alignedAt df 1 (maLast 50), alignedAt df 1 (maLast 200),
        alignedAt df 0 (maLast 50), alignedAt df 0 (maLast 200) with
    | some p50, some p200, some c50, some c200 =>
      if p50 < p200 ∧ c50 > c200 then "golden_cross"
      else if p50 > p200 ∧ c50 < c200 then "death_cross"
      else if c50 > c200 then "golden_cross_state"
      else if c50 < c200 then "death_cross_state"
      else "neutral"
    | _, _, _, _ => "neutral"

/-- The rsi classification block of `_compute_features`. -/
def rsiSignalOf (o : Option ℚ) : Option String :=
  match o with
  | none => none
  | some r =>
    if r > 70 then some "overbought"
    else if r < 30 then some "oversold"
    else some "neutral"

/-- The feature dict returned by `_compute_features` when it is non-empty.
The presentation-only field `return_1d_percent` (a rounded string copy of
`return_1d`) is not modelled. -/
structure Snapshot where
  latest_close : Option ℚ
  return_1d : Option ℚ
  ma_20 : Option ℚ
  ma_50 : Option ℚ
  ma_200 : Option ℚ
  rsi : Option ℚ
  macd : Option ℚ
  macd_signal : Option ℚ
  macd_hist : Option ℚ
  trend : String
  ma_signal : String
  rsi_signal : Option String
deriving DecidableEq, Repr

/-- `_compute_features(df)` on the Close column: `none` is the empty dict
`{}` returned for an empty frame or fewer than 200 valid closes; otherwise
every feature is read at the last row through index alignment. -/
def computeFeatures (df : List (Option ℚ)) : Option Snapshot :=
  if df.isEmpty then none
  else
    let close := df.filterMap id
    if close.length < 200 then none
    else
      some
        { latest_close := df.getLast?.bind id
          return_1d := alignedAt df 0 return1dLast
          ma_20 := alignedAt df 0 (maLast 20)
          ma_50 := alignedAt df 0 (maLast 50)
          ma_200 := alignedAt df 0 (maLast 200)
          rsi := alignedAt df 0 (rsiLast 14)
          macd := alignedAt df 0 (fun c => (macdLine c).getLast?)
          macd_signal := alignedAt df 0 (fun c => (macdSignalLine c).getLast?)
          macd_hist := alignedAt df 0 (fun c => (macdHistLine c).getLast?)
          trend := computeTrend close
          ma_signal := maSignal df
          rsi_signal := rsiSignalOf (alignedAt df 0 (rsiLast 14)) }

/-! ### Basic facts about the code-point order -/

theorem codeLe_total : ∀ (a b : List Char), codeLe a b = true ∨ codeLe b a = true
  | [], _ => Or.inl (by simp [codeLe])
  | _ :: _, [] => Or.inr (by simp [codeLe])
  | a :: as, b :: bs => by
    rcases Nat.lt_trichotomy a.toNat b.toNat with h | h | h
    · exact Or.inl (by simp [codeLe, h])
    · have h1 : ¬ a.toNat < b.toNat := by omega
      have h2 : ¬ b.toNat < a.toNat := by omega
      rcases codeLe_total as bs with ih | ih
      · exact Or.inl (by simp [codeLe, h1, h2, ih])
      · exact Or.inr (by simp [codeLe, h1, h2, ih])
    · exact Or.inr (by simp [codeLe, h])

theorem codeLe_trans : ∀ {a b c : List Char},
    codeLe a b = true → codeLe b c = true → codeLe a c = true
  | [], _, _, _, _ => by simp [codeLe]
  | _ :: _, [], _, h1, _ => by simp [codeLe] at h1
  | _ :: _, _ :: _, [], _, h2 => by simp [codeLe] at h2
  | a :: as, b :: bs, c :: cs, h1, h2 => by
    simp only [codeLe] at h1 h2 ⊢
    split_ifs at h1 h2 ⊢ <;>
      first
        | rfl
        | (exfalso; omega)
        | exact codeLe_trans h1 h2

instance : IsTotal Rec keyLe := ⟨fun a b => codeLe_total _ _⟩

instance : IsTrans Rec keyLe := ⟨fun _ _ _ => codeLe_trans⟩

/-! ### Association-list (Python dict) lemmas -/

theorem mem_dictUpsert {κ α : Type} [DecidableEq κ] {k : κ} {v : α} :
    ∀ {m : List (κ × α)} {q : κ × α}, q ∈ dictUpsert k v m → q = (k, v) ∨ q ∈ m := by
  intro m
  induction m with
  | nil => intro q hq; simp [dictUpsert] at hq; exact Or.inl hq
  | cons p ps ih =>
    intro q hq
    by_cases hp : p.1 = k
    · simp only [dictUpsert, if_pos hp] at hq
      rcases List.mem_cons.mp hq with h | h
      · exact Or.inl h
      · exact Or.inr (List.mem_cons_of_mem _ h)
    · simp only [dictUpsert, if_neg hp] at hq
      rcases List.mem_cons.mp hq with h | h
      · exact Or.inr (h ▸ List.mem_cons_self _ _)
      · rcases ih h with h' | h'
        · exact Or.inl h'
        · exact Or.inr (List.mem_cons_of_mem _ h')

theorem pairwise_dictUpsert {κ α : Type} [DecidableEq κ] {k : κ} {v : α} :
    ∀ {m : List (κ × α)}, m.Pairwise (fun p q => p.1 ≠ q.1) →
      (dictUpsert k v m).Pairwise (fun p q => p.1 ≠ q.1) := by
  intro m
  induction m with
  | nil => intro _; simp [dictUpsert]
  | cons p ps ih =>
    intro hm
    rcases List.pairwise_cons.mp hm with ⟨hhead, htail⟩
    by_cases hp : p.1 = k
    · simp only [dictUpsert, if_pos hp]
      exact List.pairwise_cons.mpr ⟨fun q hq => hp ▸ hhead q hq, htail⟩
    · simp only [dictUpsert, if_neg hp]
      refine List.pairwise_cons.mpr ⟨?_, ih htail⟩
      intro q hq
      rcases mem_dictUpsert hq with h | h
      · rw [h]; exact hp
      · exact hhead q h

theorem dictUpsert_append_of_not_mem {κ α : Type} [DecidableEq κ] {k : κ} {v : α} :
    ∀ {m : List (κ × α)}, k ∉ m.map Prod.fst → dictUpsert k v m = m ++ [(k, v)] := by
  intro m
  induction m with
  | nil => intro _; rfl
  | cons p ps ih =>
    intro hk
    simp only [List.map_cons, List.mem_cons] at hk
    push_neg at hk
    obtain ⟨hp, hk'⟩ := hk
    have hp' : ¬ p.1 = k := fun h => hp h.symm
    simp [dictUpsert, hp', ih hk']

theorem dictUpsert_eq_map {κ α : Type} [DecidableEq κ] {k : κ} {v : α} :
    ∀ {m : List (κ × α)}, m.Pairwise (fun p q => p.1 ≠ q.1) → k ∈ m.map Prod.fst →
      dictUpsert k v m = m.map (fun p => if p.1 = k then (k, v) else p) := by
  intro m
  induction m with
  | nil => intro _ h; simp at h
  | cons p ps ih =>
    intro hm hk
    rcases List.pairwise_cons.mp hm with ⟨hhead, htail⟩
    by_cases hp : p.1 = k
    · have hps : ∀ q ∈ ps, ¬ q.1 = k := fun q hq => fun h => hhead q hq (hp.trans h.symm)
      have hmap : ps.map (fun q => if q.1 = k then (k, v) else q) = ps := by
        have h1 : ps.map (fun q => if q.1 = k then (k, v) else q) = ps.map id :=
          List.map_congr_left (fun q hq => by simp [hps q hq])
        simpa using h1
      simp [dictUpsert, hp, hmap]
    · have hk' : k ∈ ps.map Prod.fst := by
        rcases List.mem_map.mp hk with ⟨q, hq, hq1⟩
        rcases List.mem_cons.mp hq with h | h
        · exact absurd (h ▸ hq1) hp
        · exact List.mem_map.mpr ⟨q, h, hq1⟩
      simp [dictUpsert, hp, ih htail hk']

theorem alookup_dictUpsert {κ α : Type} [DecidableEq κ] (k k' : κ) (v : α) :
    ∀ (m : List (κ × α)),
      alookup (dictUpsert k v m) k' = if k' = k then some v else alookup m k' := by
  intro m
  induction m with
  | nil =>
    by_cases h : k' = k
    · subst h; simp [dictUpsert, alookup]
    · have h2 : ¬ k = k' := fun hh => h hh.symm
      simp [dictUpsert, alookup, h, h2]
  | cons p ps ih =>
    by_cases hp : p.1 = k
    · by_cases h : k' = k
      · subst h; simp [dictUpsert, alookup, hp]
      · have hnk : ¬ k = k' := fun hh => h hh.symm
        have hpk' : ¬ p.1 = k' := by rw [hp]; exact hnk
        simp [dictUpsert, alookup, hp, h, hnk, hpk']
    · by_cases hpk : p.1 = k'
      · have h' : ¬ k' = k := fun hh => hp (hpk.trans hh)
        simp [dictUpsert, alookup, hp, hpk, h']
      · simp [dictUpsert, alookup, hp, hpk, ih]

theorem alookup_mem {κ α : Type} [DecidableEq κ] :
    ∀ {m : List (κ × α)} {k : κ} {v : α}, alookup m k = some v → (k, v) ∈ m := by
  intro m
  induction m with
  | nil => intro k v h; simp [alookup] at h
  | cons p ps ih =>
    intro k v h
    obtain ⟨p1, p2⟩ := p
    by_cases hp : p1 = k
    · subst hp
      simp only [alookup, if_pos rfl] at h
      obtain rfl : p2 = v := Option.some.inj h
      exact List.mem_cons_self _ _
    · simp only [alookup] at h
      rw [if_neg hp] at h
      exact List.mem_cons_of_mem _ (ih h)

theorem mem_alookup {κ α : Type} [DecidableEq κ] :
    ∀ {m : List (κ × α)}, m.Pairwise (fun p q => p.1 ≠ q.1) →
      ∀ {k : κ} {v : α}, (k, v) ∈ m → alookup m k = some v := by
  intro m
  induction m with
  | nil => intro _ k v h; simp at h
  | cons p ps ih =>
    intro hm k v h
    rcases List.pairwise_cons.mp hm with ⟨hhead, htail⟩
    rcases List.mem_cons.mp h with h' | h'
    · rw [← h']; simp [alookup]
    · have hp : ¬ p.1 = k := fun hh => hhead _ h' hh
      simp [alookup, hp, ih htail h']

/-! ### Invariants of the by-date dict -/

theorem foldl_stepRec_dates :
    ∀ (rs : List Rec) (m : List (String × Rec)),
      (∀ p ∈ m, p.2.date? = some p.1) →
      ∀ p ∈ rs.foldl stepRec m, p.2.date? = some p.1 := by
  intro rs
  induction rs with
  | nil => intro m hm; exact hm
  | cons r rest ih =>
    intro m hm
    simp only [List.foldl_cons]
    apply ih
    intro p hp
    cases hr : r.date? with
    | none => exact hm p (by simpa [stepRec, hr] using hp)
    | some d =>
      rw [stepRec, hr] at hp
      rcases mem_dictUpsert hp with h | h
      · rw [h]; exact hr
      · exact hm p h

theorem byDate_dates (rs : List Rec) : ∀ p ∈ byDate rs, p.2.date? = some p.1 :=
  foldl_stepRec_dates rs [] (by intro p hp; simp at hp)

theorem foldl_stepRec_pairwise :
    ∀ (rs : List Rec) (m : List (String × Rec)),
      m.Pairwise (fun p q => p.1 ≠ q.1) →
      (rs.foldl stepRec m).Pairwise (fun p q => p.1 ≠ q.1) := by
  intro rs
  induction rs with
  | nil => intro m hm; exact hm
  | cons r rest ih =>
    intro m hm
    simp only [List.foldl_cons]
    apply ih
    cases hr : r.date? with
    | none => simpa [stepRec, hr] using hm
    | some d => rw [stepRec, hr]; exact pairwise_dictUpsert hm

theorem byDate_pairwise (rs : List Rec) :
    (byDate rs).Pairwise (fun p q => p.1 ≠ q.1) :=
  foldl_stepRec_pairwise rs [] (by simp)

/-! ### `lastAt` and the dict as a function -/

theorem lastAt_append (xs ys : List Rec) (k : String) :
    lastAt (xs ++ ys) k =
      match lastAt ys k with
      | some v => some v
      | none => lastAt xs k := by
  induction xs with
  | nil => cases h : lastAt ys k <;> simp [lastAt, h]
  | cons x xs' ih =>
    simp only [List.cons_append, lastAt, List.append_eq]
    rw [ih]
    cases h : lastAt ys k with
    | some v => simp
    | none => cases h' : lastAt xs' k <;> simp [lastAt, h']

theorem lastAt_isSome_of_mem :
    ∀ {rs : List Rec} {r : Rec} {d : String},
      r ∈ rs → r.date? = some d → (lastAt rs d).isSome := by
  intro rs
  induction rs with
  | nil => intro r d h; simp at h
  | cons a t ih =>
    intro r d hmem hd
    rcases List.mem_cons.mp hmem with h | h
    · cases ht : lastAt t d with
      | some v => simp [lastAt, ht]
      | none => subst h; simp [lastAt, ht, hd]
    · have := ih h hd
      cases ht : lastAt t d with
      | some v => simp [lastAt, ht]
      | none => rw [ht] at this; simp at this

theorem alookup_foldl_stepRec :
    ∀ (rs : List Rec) (m : List (String × Rec)) (k : String),
      alookup (rs.foldl stepRec m) k =
        match lastAt rs k with
        | some v => some v
        | none => alookup m k := by
  intro rs
  induction rs with
  | nil => intro m k; simp [lastAt]
  | cons r rest ih =>
    intro m k
    simp only [List.foldl_cons, ih]
    cases hr : r.date? with
    | none =>
      have : (some k = none) = False := by simp
      cases h : lastAt rest k <;>
        simp [stepRec, hr, lastAt, h, Option.some_ne_none]
    | some d =>
      rw [stepRec, hr]
      rw [alookup_dictUpsert]
      by_cases hk : k = d
      · subst hk
        cases h : lastAt rest k <;> simp [lastAt, h, hr]
      · have hd : ¬ (some d = some k : Prop) := by
          intro hc; exact hk (Option.some.inj hc).symm
        cases h : lastAt rest k <;> simp [lastAt, h, hr, hk, hd]

theorem alookup_byDate (rs : List Rec) (k : String) :
    alookup (byDate rs) k = lastAt rs k := by
  have h := alookup_foldl_stepRec rs [] k
  rw [byDate]
  rw [h]
  cases hh : lastAt rs k <;> simp [alookup]

/-! ### The by-date dict of a distinct, fully dated record list -/

theorem foldl_stepRec_fresh :
    ∀ (rs : List Rec) (m : List (String × Rec)),
      (∀ r ∈ rs, r.date?.isSome) →
      rs.Pairwise (fun a b => keyOf a ≠ keyOf b) →
      (∀ r ∈ rs, ∀ k, r.date? = some k → k ∉ m.map Prod.fst) →
      rs.foldl stepRec m = m ++ rs.map (fun r => (keyOf r, r)) := by
  intro rs
  induction rs with
  | nil => intro m _ _ _; simp
  | cons r rest ih =>
    intro m hdated hpw hfresh
    obtain ⟨d, hd⟩ := Option.isSome_iff_exists.mp (hdated r (List.mem_cons_self _ _))
    have hkeyr : keyOf r = d := by simp [keyOf, hd]
    have hstep : stepRec m r = m ++ [(d, r)] := by
      rw [stepRec, hd]
      exact dictUpsert_append_of_not_mem (hfresh r (List.mem_cons_self _ _) d hd)
    rcases List.pairwise_cons.mp hpw with ⟨hhead, htail⟩
    have hfresh' : ∀ r' ∈ rest, ∀ k, r'.date? = some k →
        k ∉ (m ++ [(d, r)]).map Prod.fst := by
      intro r' hr' k hk
      have h1 : k ∉ m.map Prod.fst :=
        hfresh r' (List.mem_cons_of_mem _ hr') k hk
      have h2 : keyOf r' = k := by simp [keyOf, hk]
      have h3 : k ≠ d := by
        intro hc
        exact hhead r' hr' (by rw [hkeyr, h2, hc])
      simp [h1, h3]
    have hdated' : ∀ r' ∈ rest, r'.date?.isSome :=
      fun r' hr' => hdated r' (List.mem_cons_of_mem _ hr')
    simp only [List.foldl_cons, hstep, ih _ hdated' htail hfresh']
    simp [hkeyr]

theorem byDate_of_distinct (M : List Rec)
    (hdated : ∀ r ∈ M, r.date?.isSome)
    (hpw : M.Pairwise (fun a b => keyOf a ≠ keyOf b)) :
    byDate M = M.map (fun r => (keyOf r, r)) := by
  have h := foldl_stepRec_fresh M [] hdated hpw (by intro r _ k _; simp)
  simpa [byDate] using h

/-! ### Folding a batch into a dict that already holds all its dates -/

theorem foldl_stepRec_stable :
    ∀ (B : List Rec) (m : List (String × Rec)),
      m.Pairwise (fun p q => p.1 ≠ q.1) →
      (∀ r ∈ B, ∀ d, r.date? = some d → d ∈ m.map Prod.fst) →
      B.foldl stepRec m = m.map (fun p => (p.1, (lastAt B p.1).getD p.2)) := by
  intro B
  induction B with
  | nil =>
    intro m _ _
    simp only [List.foldl_nil, lastAt]
    have : m.map (fun p => (p.1, (none : Option Rec).getD p.2)) = m.map id :=
      List.map_congr_left (fun p _ => by simp)
    simpa using this
  | cons r B' ih =>
    intro m hpw hmem
    cases hr : r.date? with
    | none =>
      have hmem' : ∀ r' ∈ B', ∀ d, r'.date? = some d → d ∈ m.map Prod.fst :=
        fun r' hr' d hd => hmem r' (List.mem_cons_of_mem _ hr') d hd
      simp only [List.foldl_cons, stepRec, hr, ih m hpw hmem']
      apply List.map_congr_left
      intro p _
      have : lastAt (r :: B') p.1 = lastAt B' p.1 := by
        cases h : lastAt B' p.1 <;> simp [lastAt, h, hr]
      rw [this]
    | some d =>
      have hd : d ∈ m.map Prod.fst := hmem r (List.mem_cons_self _ _) d hr
      have hstep : stepRec m r = m.map (fun p => if p.1 = d then (d, r) else p) := by
        rw [stepRec, hr]; exact dictUpsert_eq_map hpw hd
      have hfst : ∀ p : String × Rec, ((if p.1 = d then (d, r) else p) : String × Rec).1 = p.1 := by
        intro p
        by_cases h : p.1 = d <;> simp [h]
      have hkeys : (m.map (fun p => if p.1 = d then (d, r) else p)).map Prod.fst
          = m.map Prod.fst := by
        rw [List.map_map]
        exact List.map_congr_left (fun p _ => hfst p)
      have hpw' : (m.map (fun p => if p.1 = d then (d, r) else p)).Pairwise
          (fun p q => p.1 ≠ q.1) := by
        rw [List.pairwise_map]
        apply hpw.imp
        intro p q h
        rw [hfst p, hfst q]
        exact h
      have hmem' : ∀ r' ∈ B', ∀ d', r'.date? = some d' →
          d' ∈ (m.map (fun p => if p.1 = d then (d, r) else p)).map Prod.fst := by
        intro r' hr' d' hd'
        rw [hkeys]
        exact hmem r' (List.mem_cons_of_mem _ hr') d' hd'
      simp only [List.foldl_cons, hstep, ih _ hpw' hmem', List.map_map]
      apply List.map_congr_left
      intro p _
      simp only [Function.comp]
      by_cases hp : p.1 = d
      · subst hp
        simp only [if_pos rfl]
        cases h : lastAt B' p.1 <;> simp [lastAt, h, hr]
      · simp only [if_neg hp]
        have hd' : ¬ (some d = some p.1 : Prop) := by
          intro hc; exact hp (Option.some.inj hc).symm
        cases h : lastAt B' p.1 <;> simp [lastAt, h, hr, hd']

/-! ### Unique representative per key -/

theorem eq_of_same_key :
    ∀ {l : List Rec}, l.Pairwise (fun a b => keyOf a ≠ keyOf b) →
      ∀ {v w : Rec}, v ∈ l → w ∈ l → keyOf v = keyOf w → v = w := by
  intro l
  induction l with
  | nil => intro _ v w h; simp at h
  | cons a t ih =>
    intro hpw v w hv hw hk
    rcases List.pairwise_cons.mp hpw with ⟨hhead, htail⟩
    rcases List.mem_cons.mp hv with hv' | hv' <;> rcases List.mem_cons.mp hw with hw' | hw'
    · rw [hv', hw']
    · exact absurd (hv' ▸ hk) (hhead w hw')
    · exact absurd (hw' ▸ hk.symm) (hhead v hv')
    · exact ih htail hv' hw' hk

/-! ### Structure of a merge result -/

theorem mergeRecords_eq (P B : List Rec) :
    mergeRecords P B = sortByDate ((byDate (P ++ B)).map Prod.snd) := by
  rw [mergeRecords, byDate, byDate, List.foldl_append]

theorem mem_mergeRecords_of_byDate {P B : List Rec} {p : String × Rec}
    (h : p ∈ byDate (P ++ B)) : p.2 ∈ mergeRecords P B := by
  rw [mergeRecords_eq, sortByDate]
  rw [List.mem_insertionSort]
  exact List.mem_map.mpr ⟨p, h, rfl⟩

theorem mergeRecords_dated {P B : List Rec} :
    ∀ r ∈ mergeRecords P B, r.date?.isSome := by
  intro r hr
  rw [mergeRecords_eq, sortByDate, List.mem_insertionSort] at hr
  rcases List.mem_map.mp hr with ⟨p, hp, hp2⟩
  rw [← hp2, byDate_dates (P ++ B) p hp]
  rfl

theorem keyOf_eq_of_date {r : Rec} {d : String} (h : r.date? = some d) :
    keyOf r = d := by simp [keyOf, h]

theorem mergeRecords_pairwise_keys (P B : List Rec) :
    (mergeRecords P B).Pairwise (fun a b => keyOf a ≠ keyOf b) := by
  have hD := byDate_pairwise (P ++ B)
  have hvals : ((byDate (P ++ B)).map Prod.snd).Pairwise
      (fun a b => keyOf a ≠ keyOf b) := by
    rw [List.pairwise_map]
    refine hD.imp_of_mem ?_
    intro p q hp hq hne
    rw [keyOf_eq_of_date (byDate_dates _ p hp),
      keyOf_eq_of_date (byDate_dates _ q hq)]
    exact hne
  rw [mergeRecords_eq, sortByDate]
  exact ((List.perm_insertionSort keyLe _).pairwise_iff
    (fun h => Ne.symm h)).mpr hvals

theorem mergeRecords_sorted (P B : List Rec) :
    (mergeRecords P B).Pairwise keyLe := by
  rw [mergeRecords_eq, sortByDate]
  exact List.sorted_insertionSort keyLe _

theorem mem_mergeRecords_of_lastAt {P B : List Rec} {d : String} {w : Rec}
    (h : lastAt (P ++ B) d = some w) :
    w ∈ mergeRecords P B ∧ keyOf w = d := by
  have h1 : alookup (byDate (P ++ B)) d = some w := by
    rw [alookup_byDate]; exact h
  have h2 : (d, w) ∈ byDate (P ++ B) := alookup_mem h1
  exact ⟨mem_mergeRecords_of_byDate h2,
    keyOf_eq_of_date (byDate_dates _ _ h2)⟩

theorem lastAt_append_of_some {P B : List Rec} {d : String} {w : Rec}
    (h : lastAt B d = some w) : lastAt (P ++ B) d = some w := by
  rw [lastAt_append, h]

/-- Merge is idempotent: re-merging the same batch into an already merged
result is the identity. -/
theorem merge_idem_aux (P B : List Rec) :
    mergeRecords (mergeRecords P B) B = mergeRecords P B := by
  set M := mergeRecords P B with hM
  have hdated : ∀ r ∈ M, r.date?.isSome := mergeRecords_dated
  have hpw : M.Pairwise (fun a b => keyOf a ≠ keyOf b) :=
    mergeRecords_pairwise_keys P B
  have hsorted : M.Pairwise keyLe := mergeRecords_sorted P B
  have hbyM : byDate M = M.map (fun r => (keyOf r, r)) :=
    byDate_of_distinct M hdated hpw
  have hpwD : (byDate M).Pairwise (fun p q => p.1 ≠ q.1) := byDate_pairwise M
  have hkeys : ∀ r ∈ B, ∀ d, r.date? = some d → d ∈ (byDate M).map Prod.fst := by
    intro r hr d hd
    have h1 : (lastAt B d).isSome := lastAt_isSome_of_mem hr hd
    obtain ⟨w, hw⟩ := Option.isSome_iff_exists.mp h1
    obtain ⟨hwM, hwk⟩ := mem_mergeRecords_of_lastAt (lastAt_append_of_some (P := P) hw)
    rw [hbyM, List.map_map]
    exact List.mem_map.mpr ⟨w, hwM, by simp [hwk]⟩
  have hfold : B.foldl stepRec (byDate M) =
      (byDate M).map (fun p => (p.1, (lastAt B p.1).getD p.2)) :=
    foldl_stepRec_stable B _ hpwD hkeys
  have hid : (byDate M).map (fun p => (p.1, (lastAt B p.1).getD p.2)) = byDate M := by
    have hpt : ∀ p ∈ byDate M, (p.1, (lastAt B p.1).getD p.2) = p := by
      intro p hp
      cases hLB : lastAt B p.1 with
      | none => simp
      | some w =>
        obtain ⟨hwM, hwk⟩ :=
          mem_mergeRecords_of_lastAt (lastAt_append_of_some (P := P) hLB)
        rw [← hM] at hwM
        have hpM : p.2 ∈ M ∧ keyOf p.2 = p.1 := by
          rw [hbyM] at hp
          rcases List.mem_map.mp hp with ⟨v, hv, hveq⟩
          constructor
          · rw [← hveq]; exact hv
          · rw [← hveq]
        have : w = p.2 := eq_of_same_key hpw hwM hpM.1 (by rw [hwk, hpM.2])
        simp [this]
    calc (byDate M).map (fun p => (p.1, (lastAt B p.1).getD p.2))
        = (byDate M).map id := List.map_congr_left (fun p hp => by rw [hpt p hp]; rfl)
      _ = byDate M := List.map_id _
  have hsndmap : ((byDate M).map Prod.snd) = M := by
    rw [hbyM, List.map_map]
    have : (Prod.snd ∘ fun r : Rec => (keyOf r, r)) = id := rfl
    rw [this, List.map_id]
  show sortByDate ((B.foldl stepRec (byDate M)).map Prod.snd) = M
  rw [hfold, hid, hsndmap, sortByDate]
  exact List.Sorted.insertionSort_eq hsorted

/-! ### Claim C1 -/

/-- C1: merge is idempotent.  For every cached record list P and every
incoming batch B, merging B into the result of merging B into P yields the
same record list as merging B into P once:
`_merge_records(_merge_records(P, B), B) = _merge_records(P, B)`. -/
theorem C1_merge_idempotent (P B : List Rec) :
    mergeRecords (mergeRecords P B) B = mergeRecords P B :=
  merge_idem_aux P B

/-! ### Claim C2 -/

/-- C2: the concrete two-batch scenario yields exactly the two records
2024-01-02 (close 101) and 2024-01-03 (close 102) in ascending date order;
in general the last incoming record for a date is the unique merged record
carrying that date (incoming wins on conflict), and the merge result is
sorted ascending by date key. -/
theorem C2_merge_scenario_and_lww :
    (mergeRecords (mergeRecords [] [⟨some "2024-01-02", 100⟩])
        [⟨some "2024-01-02", 101⟩, ⟨some "2024-01-03", 102⟩] =
      [⟨some "2024-01-02", 101⟩, ⟨some "2024-01-03", 102⟩]) ∧
    (∀ P B : List Rec, (mergeRecords P B).Pairwise keyLe) ∧
    (∀ (P B : List Rec) (d : String) (w : Rec), lastAt B d = some w →
      w ∈ mergeRecords P B ∧
        ∀ v ∈ mergeRecords P B, v.date? = some d → v = w) := by
  refine ⟨by decide, mergeRecords_sorted, ?_⟩
  intro P B d w hw
  obtain ⟨hwM, hwk⟩ := mem_mergeRecords_of_lastAt (lastAt_append_of_some (P := P) hw)
  refine ⟨hwM, ?_⟩
  intro v hv hvd
  exact eq_of_same_key (mergeRecords_pairwise_keys P B) hv hwM
    (by rw [keyOf_eq_of_date hvd, hwk])

/-- Witness for C2: in the scenario batch, the last record dated 2024-01-02
is the one with close 101, and the theorem places it as the unique record of
that date in the merge result. -/
theorem C2_merge_scenario_and_lww_witness :
    (⟨some "2024-01-02", 101⟩ : Rec) ∈
      mergeRecords [] [⟨some "2024-01-02", 101⟩, ⟨some "2024-01-03", 102⟩] ∧
    ∀ v ∈ mergeRecords [] [⟨some "2024-01-02", 101⟩, ⟨some "2024-01-03", 102⟩],
      v.date? = some "2024-01-02" → v = ⟨some "2024-01-02", 101⟩ :=
  C2_merge_scenario_and_lww.2.2 []
    [⟨some "2024-01-02", 101⟩, ⟨some "2024-01-03", 102⟩]
    "2024-01-02" ⟨some "2024-01-02", 101⟩ (by decide)

/-! ### Claim C9 -/

/-- C9: in `refresh`, when `incremental` is false and an explicit window is
given, the stored partition data is exactly the fetched record list: the
cached records are discarded, not merged, so the partition can shrink (here
from two cached records to one). -/
theorem C9_refresh_replaces :
    (∀ cachedData fetched : List Rec,
      refreshStoredData false cachedData fetched = fetched) ∧
    (refreshStoredData false
        [⟨some "2024-01-02", 2⟩, ⟨some "2024-01-03", 3⟩]
        [⟨some "2024-01-05", 5⟩]).length <
      ([⟨some "2024-01-02", 2⟩, ⟨some "2024-01-03", 3⟩] : List Rec).length := by
  constructor
  · intro cachedData fetched
    rfl
  · decide

/-! ### Claim C7 -/

/-- C7 counterexample: in the incremental branch of `get_daily` an empty
fetch result does not short-circuit — `_merge_records(cached_data, [])` runs
and its output is stored.  With a cached partition whose records are not in
date order the stored record list therefore changes even though nothing was
fetched. -/
theorem C7_counterexample_getDaily_writes_on_empty_fetch :
    getDailyStoredData [⟨some "2024-01-03", 3⟩, ⟨some "2024-01-02", 2⟩] [] ≠
      [⟨some "2024-01-03", 3⟩, ⟨some "2024-01-02", 2⟩] := by decide

/-- C7 amended: in the engine's `daily_incremental_update_job` an empty fetch
returns before any save, leaving stored state unchanged and raising no error;
in the service's `get_daily`, by contrast, an empty fetch still runs the
merge and rewrites the partition — the record data is only guaranteed
unchanged when the cached partition is already normalized (every record
dated, dates distinct, sorted ascending). -/
theorem C7_empty_fetch_behavior :
    (∀ existing : List IdxRow, dailyIncrementalStored existing [] = existing) ∧
    (∀ cached : List Rec, (∀ r ∈ cached, r.date?.isSome) →
      cached.Pairwise (fun a b => keyOf a ≠ keyOf b) →
      cached.Pairwise keyLe →
      getDailyStoredData cached [] = cached) := by
  constructor
  · intro existing; rfl
  · intro cached hdated hpw hsorted
    show mergeRecords cached [] = cached
    rw [mergeRecords]
    simp only [List.foldl_nil]
    rw [byDate_of_distinct cached hdated hpw, List.map_map]
    have hcomp : (Prod.snd ∘ fun r : Rec => (keyOf r, r)) = id := rfl
    rw [hcomp, List.map_id, sortByDate]
    exact List.Sorted.insertionSort_eq hsorted

/-- Witness for C7: a normalized two-record cache is re-stored verbatim by
the empty-fetch merge of `get_daily`. -/
theorem C7_empty_fetch_behavior_witness :
    getDailyStoredData [⟨some "2024-01-02", 2⟩, ⟨some "2024-01-03", 3⟩] [] =
      [⟨some "2024-01-02", 2⟩, ⟨some "2024-01-03", 3⟩] :=
  C7_empty_fetch_behavior.2 [⟨some "2024-01-02", 2⟩, ⟨some "2024-01-03", 3⟩]
    (by decide) (by decide) (by decide)

/-! ### Claim C4: split-by-year -/

theorem appendGroup_inv {y : Nat} {r : Rec} {d : String}
    (hr : r.date? = some d) (hy : yearOf d = y) :
    ∀ {m : List (Nat × List Rec)},
      (∀ p ∈ m, ∀ s ∈ p.2, ∃ e, s.date? = some e ∧ yearOf e = p.1) →
      ∀ p ∈ appendGroup y r m, ∀ s ∈ p.2, ∃ e, s.date? = some e ∧ yearOf e = p.1 := by
  intro m
  induction m with
  | nil =>
    intro _ p hp s hs
    simp only [appendGroup, List.mem_singleton] at hp
    subst hp
    simp only [List.mem_singleton] at hs
    subst hs
    exact ⟨d, hr, hy⟩
  | cons q qs ih =>
    intro hm p hp s hs
    by_cases hq : q.1 = y
    · simp only [appendGroup, if_pos hq] at hp
      rcases List.mem_cons.mp hp with h | h
      · subst h
        rcases List.mem_append.mp hs with h' | h'
        · exact hm q (List.mem_cons_self _ _) s h'
        · simp only [List.mem_singleton] at h'
          subst h'
          exact ⟨d, hr, hq ▸ hy⟩
      · exact hm p (List.mem_cons_of_mem _ h) s hs
    · simp only [appendGroup, if_neg hq] at hp
      rcases List.mem_cons.mp hp with h | h
      · exact hm p (h ▸ List.mem_cons_self _ _) s hs
      · exact ih (fun p' hp' => hm p' (List.mem_cons_of_mem _ hp')) p h s hs

theorem foldl_stepGroup_inv :
    ∀ (records : List Rec) (m : List (Nat × List Rec)),
      (∀ p ∈ m, ∀ s ∈ p.2, ∃ e, s.date? = some e ∧ yearOf e = p.1) →
      ∀ p ∈ records.foldl stepGroup m, ∀ s ∈ p.2,
        ∃ e, s.date? = some e ∧ yearOf e = p.1 := by
  intro records
  induction records with
  | nil => intro m hm; exact hm
  | cons r rest ih =>
    intro m hm
    simp only [List.foldl_cons]
    apply ih
    cases hr : r.date? with
    | none => simpa [stepGroup, hr] using hm
    | some d =>
      rw [stepGroup, hr]
      exact appendGroup_inv hr rfl hm

theorem appendGroup_mono {y' : Nat} {r' : Rec} :
    ∀ {m : List (Nat × List Rec)} {y : Nat} {r : Rec},
      (∃ g, (y, g) ∈ m ∧ r ∈ g) →
      ∃ g', (y, g') ∈ appendGroup y' r' m ∧ r ∈ g' := by
  intro m
  induction m with
  | nil => intro y r h; obtain ⟨g, hg, _⟩ := h; simp at hg
  | cons q qs ih =>
    intro y r h
    obtain ⟨g, hg, hr⟩ := h
    by_cases hq : q.1 = y'
    · simp only [appendGroup, if_pos hq]
      rcases List.mem_cons.mp hg with h' | h'
      · refine ⟨q.2 ++ [r'], ?_, List.mem_append_left _ ?_⟩
        · have : y = q.1 := by rw [← h']
          rw [this]
          exact List.mem_cons_self _ _
        · have : g = q.2 := by rw [← h']
          exact this ▸ hr
      · exact ⟨g, List.mem_cons_of_mem _ h', hr⟩
    · simp only [appendGroup, if_neg hq]
      rcases List.mem_cons.mp hg with h' | h'
      · exact ⟨g, h' ▸ List.mem_cons_self _ _, hr⟩
      · obtain ⟨g', hg', hr'⟩ := ih ⟨g, h', hr⟩
        exact ⟨g', List.mem_cons_of_mem _ hg', hr'⟩

theorem stepGroup_mono {r' : Rec} {m : List (Nat × List Rec)} {y : Nat} {r : Rec}
    (h : ∃ g, (y, g) ∈ m ∧ r ∈ g) :
    ∃ g', (y, g') ∈ stepGroup m r' ∧ r ∈ g' := by
  cases hr : r'.date? with
  | none => rw [stepGroup, hr]; exact h
  | some d => rw [stepGroup, hr]; exact appendGroup_mono h

theorem appendGroup_self {y : Nat} {r : Rec} :
    ∀ (m : List (Nat × List Rec)), ∃ g, (y, g) ∈ appendGroup y r m ∧ r ∈ g := by
  intro m
  induction m with
  | nil => exact ⟨[r], List.mem_singleton.mpr rfl, List.mem_singleton.mpr rfl⟩
  | cons q qs ih =>
    by_cases hq : q.1 = y
    · refine ⟨q.2 ++ [r], ?_, List.mem_append_right _ (List.mem_singleton.mpr rfl)⟩
      simp only [appendGroup, if_pos hq, hq]
      exact List.mem_cons_self _ _
    · obtain ⟨g, hg, hr⟩ := ih
      exact ⟨g, by simp only [appendGroup, if_neg hq]; exact List.mem_cons_of_mem _ hg, hr⟩

theorem foldl_stepGroup_mono :
    ∀ (records : List Rec) (m : List (Nat × List Rec)) {y : Nat} {r : Rec},
      (∃ g, (y, g) ∈ m ∧ r ∈ g) →
      ∃ g', (y, g') ∈ records.foldl stepGroup m ∧ r ∈ g' := by
  intro records
  induction records with
  | nil => intro m y r h; exact h
  | cons r0 rest ih =>
    intro m y r h
    simp only [List.foldl_cons]
    exact ih _ (stepGroup_mono h)

theorem foldl_stepGroup_complete :
    ∀ (records : List Rec) (m : List (Nat × List Rec)) {r : Rec} {d : String},
      r ∈ records → r.date? = some d →
      ∃ g, (yearOf d, g) ∈ records.foldl stepGroup m ∧ r ∈ g := by
  intro records
  induction records with
  | nil => intro m r d h; simp at h
  | cons r0 rest ih =>
    intro m r d hmem hd
    simp only [List.foldl_cons]
    rcases List.mem_cons.mp hmem with h | h
    · subst h
      apply foldl_stepGroup_mono
      rw [stepGroup, hd]
      exact appendGroup_self m
    · exact ih _ h hd

/-- C4: split-by-year is year-faithful.  Every record landing in the group
keyed `y` is dated with a date whose calendar year is `y`, each emitted group
is sorted ascending by date, and every dated input record lands in the group
of its own year. -/
theorem C4_split_by_year (records : List Rec) :
    (∀ y g, (y, g) ∈ splitByYear records →
      (∀ s ∈ g, ∃ e, s.date? = some e ∧ yearOf e = y) ∧ g.Pairwise keyLe) ∧
    (∀ r ∈ records, ∀ d, r.date? = some d →
      ∃ g, (yearOf d, g) ∈ splitByYear records ∧ r ∈ g) := by
  constructor
  · intro y g hg
    rw [splitByYear] at hg
    rcases List.mem_map.mp hg with ⟨p, hp, heq⟩
    have hy : p.1 = y := congrArg Prod.fst heq
    have hgg : g = sortByDate p.2 := (congrArg Prod.snd heq).symm
    constructor
    · intro s hs
      rw [hgg, sortByDate, List.mem_insertionSort] at hs
      have := foldl_stepGroup_inv records [] (by simp) p hp s hs
      rw [hy] at this
      exact this
    · rw [hgg, sortByDate]
      exact List.sorted_insertionSort keyLe _
  · intro r hr d hd
    obtain ⟨g, hg, hrg⟩ := foldl_stepGroup_complete records [] hr hd
    refine ⟨sortByDate g, ?_, ?_⟩
    · rw [splitByYear]
      exact List.mem_map.mpr ⟨(yearOf d, g), hg, rfl⟩
    · rw [sortByDate, List.mem_insertionSort]
      exact hrg

/-- Witness for C4: a concrete three-record batch spanning 2023 and 2024.
The 2024 group of the split contains exactly the 2024 records in date order,
and the dated record "2023-05-01" lands in the group keyed 2023. -/
theorem C4_split_by_year_witness :
    ((∀ s ∈ ([⟨some "2024-01-01", 3⟩, ⟨some "2024-01-02", 1⟩] : List Rec),
        ∃ e, s.date? = some e ∧ yearOf e = 2024) ∧
      ([⟨some "2024-01-01", 3⟩, ⟨some "2024-01-02", 1⟩] : List Rec).Pairwise keyLe) ∧
    (∃ g, (2023, g) ∈ splitByYear
        [⟨some "2024-01-02", 1⟩, ⟨some "2023-05-01", 2⟩, ⟨some "2024-01-01", 3⟩] ∧
      (⟨some "2023-05-01", 2⟩ : Rec) ∈ g) := by
  constructor
  · exact (C4_split_by_year
      [⟨some "2024-01-02", 1⟩, ⟨some "2023-05-01", 2⟩, ⟨some "2024-01-01", 3⟩]).1
      2024 [⟨some "2024-01-01", 3⟩, ⟨some "2024-01-02", 1⟩] (by decide)
  · have h := (C4_split_by_year
      [⟨some "2024-01-02", 1⟩, ⟨some "2023-05-01", 2⟩, ⟨some "2024-01-01", 3⟩]).2
      ⟨some "2023-05-01", 2⟩ (by decide) "2023-05-01" rfl
    simpa using h

/-! ### Claim C3: manifest invariant -/

theorem codeLe_refl : ∀ (a : List Char), codeLe a a = true
  | [] => by simp [codeLe]
  | c :: cs => by simp [codeLe, codeLe_refl cs]

theorem tmFold_spec :
    ∀ (vals : List (Option String)) (acc : Option String),
      (∀ d, vals.foldl tmStep acc = some d →
        (acc = some d ∨ (some d ∈ vals ∧ d ≠ "")) ∧
        (∀ v, some v ∈ vals → v ≠ "" → codeLe v.data d.data = true) ∧
        (∀ l, acc = some l → codeLe l.data d.data = true)) ∧
      (vals.foldl tmStep acc = none →
        acc = none ∧ ∀ v, some v ∈ vals → v = "") := by
  intro vals
  induction vals with
  | nil =>
    intro acc
    constructor
    · intro d hd
      simp only [List.foldl_nil] at hd
      refine ⟨Or.inl hd, by simp, ?_⟩
      intro l hl
      rw [hd] at hl
      rw [Option.some.inj hl]
      exact codeLe_refl _
    · intro h
      simp only [List.foldl_nil] at h
      exact ⟨h, by simp⟩
  | cons ov rest ih =>
    intro acc
    have key : ∀ (acc' : Option String), tmStep acc ov = acc' →
        (∀ d, rest.foldl tmStep acc' = some d →
          (acc = some d ∨ (some d ∈ ov :: rest ∧ d ≠ "")) ∧
          (∀ v, some v ∈ ov :: rest → v ≠ "" → codeLe v.data d.data = true) ∧
          (∀ l, acc = some l → codeLe l.data d.data = true)) ∧
        (rest.foldl tmStep acc' = none →
          acc = none ∧ ∀ v, some v ∈ ov :: rest → v = "") := by
      intro acc' hstep
      obtain ⟨ihSome, ihNone⟩ := ih acc'
      cases ov with
      | none =>
        have hacc : acc' = acc := by rw [← hstep]; rfl
        subst hacc
        constructor
        · intro d hd
          obtain ⟨h1, h2, h3⟩ := ihSome d hd
          refine ⟨?_, ?_, h3⟩
          · rcases h1 with h | ⟨hm, hne⟩
            · exact Or.inl h
            · exact Or.inr ⟨List.mem_cons_of_mem _ hm, hne⟩
          · intro v hv hvne
            rcases List.mem_cons.mp hv with h | h
            · exact absurd h (by simp)
            · exact h2 v h hvne
        · intro h
          obtain ⟨h1, h2⟩ := ihNone h
          refine ⟨h1, ?_⟩
          intro v hv
          rcases List.mem_cons.mp hv with h' | h'
          · exact absurd h' (by simp)
          · exact h2 v h'
      | some w =>
        by_cases hw : w = ""
        · have hacc : acc' = acc := by rw [← hstep]; simp [tmStep, hw]
          subst hacc
          constructor
          · intro d hd
            obtain ⟨h1, h2, h3⟩ := ihSome d hd
            refine ⟨?_, ?_, h3⟩
            · rcases h1 with h | ⟨hm, hne⟩
              · exact Or.inl h
              · exact Or.inr ⟨List.mem_cons_of_mem _ hm, hne⟩
            · intro v hv hvne
              rcases List.mem_cons.mp hv with h' | h'
              · exact absurd (Option.some.inj h') (hw ▸ hvne)
              · exact h2 v h' hvne
          · intro h
            obtain ⟨h1, h2⟩ := ihNone h
            refine ⟨h1, ?_⟩
            intro v hv
            rcases List.mem_cons.mp hv with h' | h'
            · rw [Option.some.inj h', hw]
            · exact h2 v h'
        · cases acc with
          | none =>
            have hacc : acc' = some w := by rw [← hstep]; simp [tmStep, hw]
            subst hacc
            constructor
            · intro d hd
              obtain ⟨h1, h2, h3⟩ := ihSome d hd
              have hwd : codeLe w.data d.data = true := h3 w rfl
              refine ⟨?_, ?_, by intro l hl; exact absurd hl (by simp)⟩
              · rcases h1 with h | ⟨hm, hne⟩
                · have : d = w := (Option.some.inj h).symm
                  exact Or.inr ⟨by rw [this]; exact List.mem_cons_self _ _, this ▸ hw⟩
                · exact Or.inr ⟨List.mem_cons_of_mem _ hm, hne⟩
              · intro v hv hvne
                rcases List.mem_cons.mp hv with h' | h'
                · rw [Option.some.inj h']; exact hwd
                · exact h2 v h' hvne
            · intro h
              obtain ⟨h1, _⟩ := ihNone h
              exact absurd h1 (by simp)
          | some l0 =>
            by_cases hcmp : codeLe w.data l0.data = true
            · have hacc : acc' = some l0 := by rw [← hstep]; simp [tmStep, hw, hcmp]
              subst hacc
              constructor
              · intro d hd
                obtain ⟨h1, h2, h3⟩ := ihSome d hd
                have hl0d : codeLe l0.data d.data = true := h3 l0 rfl
                refine ⟨?_, ?_, ?_⟩
                · rcases h1 with h | ⟨hm, hne⟩
                  · exact Or.inl h
                  · exact Or.inr ⟨List.mem_cons_of_mem _ hm, hne⟩
                · intro v hv hvne
                  rcases List.mem_cons.mp hv with h' | h'
                  · rw [Option.some.inj h']
                    exact codeLe_trans hcmp hl0d
                  · exact h2 v h' hvne
                · intro l hl
                  rw [← Option.some.inj hl]
                  exact hl0d
              · intro h
                obtain ⟨h1, _⟩ := ihNone h
                exact absurd h1 (by simp)
            · have hacc : acc' = some w := by rw [← hstep]; simp [tmStep, hw, hcmp]
              subst hacc
              constructor
              · intro d hd
                obtain ⟨h1, h2, h3⟩ := ihSome d hd
                have hwd : codeLe w.data d.data = true := h3 w rfl
                have hl0w : codeLe l0.data w.data = true := by
                  rcases codeLe_total w.data l0.data with h' | h'
                  · exact absurd h' hcmp
                  · exact h'
                refine ⟨?_, ?_, ?_⟩
                · rcases h1 with h | ⟨hm, hne⟩
                  · have : d = w := (Option.some.inj h).symm
                    exact Or.inr ⟨by rw [this]; exact List.mem_cons_self _ _, this ▸ hw⟩
                  · exact Or.inr ⟨List.mem_cons_of_mem _ hm, hne⟩
                · intro v hv hvne
                  rcases List.mem_cons.mp hv with h' | h'
                  · rw [Option.some.inj h']; exact hwd
                  · exact h2 v h' hvne
                · intro l hl
                  rw [← Option.some.inj hl]
                  exact codeLe_trans hl0w hwd
              · intro h
                obtain ⟨h1, _⟩ := ihNone h
                exact absurd h1 (by simp)
    have := key (tmStep acc ov) rfl
    constructor
    · intro d hd
      exact this.1 d (by simpa [List.foldl_cons] using hd)
    · intro h
      exact this.2 (by simpa [List.foldl_cons] using h)

theorem truthyMax_spec (vals : List (Option String)) :
    (∀ d, truthyMax vals = some d →
      (some d ∈ vals ∧ d ≠ "") ∧
      ∀ v, some v ∈ vals → v ≠ "" → codeLe v.data d.data = true) ∧
    (truthyMax vals = none → ∀ v, some v ∈ vals → v = "") := by
  obtain ⟨hSome, hNone⟩ := tmFold_spec vals none
  constructor
  · intro d hd
    obtain ⟨h1, h2, _⟩ := hSome d hd
    rcases h1 with h | h
    · exact absurd h (by simp)
    · exact ⟨h, h2⟩
  · intro h
    exact (hNone h).2

/-- The latest-date part of the manifest invariant: `latestDate` is the
maximum (lexicographic, skipping falsy values) over `latestDateByYear`. -/
def latestInv (M : Manifest) : Prop :=
  (∀ d, M.latestDate = some d →
    (∃ y, (y, some d) ∈ M.latestDateByYear) ∧ d ≠ "" ∧
    ∀ y v, (y, some v) ∈ M.latestDateByYear → v ≠ "" →
      codeLe v.data d.data = true) ∧
  (M.latestDate = none →
    ∀ y v, (y, some v) ∈ M.latestDateByYear → v = "")

theorem mem_snd_iff {lby : List (Nat × Option String)} {d : String} :
    some d ∈ lby.map Prod.snd ↔ ∃ y, (y, some d) ∈ lby := by
  constructor
  · intro h
    rcases List.mem_map.mp h with ⟨p, hp, hp2⟩
    exact ⟨p.1, by rw [← Prod.mk.eta (p := p), hp2] at hp; exact hp⟩
  · intro ⟨y, hy⟩
    exact List.mem_map.mpr ⟨(y, some d), hy, rfl⟩

theorem latestInv_applyUpdate (m : Manifest) (year : Nat) (data : List Rec) :
    latestInv (applyUpdate m year data) := by
  obtain ⟨hSome, hNone⟩ :=
    truthyMax_spec ((applyUpdate m year data).latestDateByYear.map Prod.snd)
  constructor
  · intro d hd
    obtain ⟨⟨hmem, hne⟩, hmax⟩ := hSome d hd
    refine ⟨mem_snd_iff.mp hmem, hne, ?_⟩
    intro y v hv hvne
    exact hmax v (mem_snd_iff.mpr ⟨y, hv⟩) hvne
  · intro hd y v hv
    exact hNone hd v (mem_snd_iff.mpr ⟨y, hv⟩)

theorem latestInv_empty : latestInv emptyManifest := by
  constructor
  · intro d hd; exact absurd hd (by simp [emptyManifest])
  · intro _ y v hv; exact absurd hv (by simp [emptyManifest])

theorem latestInv_foldl :
    ∀ (us : List (Nat × List Rec)) (m : Manifest), latestInv m →
      latestInv (us.foldl (fun m u => applyUpdate m u.1 u.2) m) := by
  intro us
  induction us with
  | nil => intro m hm; exact hm
  | cons u rest ih =>
    intro m _
    simp only [List.foldl_cons]
    exact ih _ (latestInv_applyUpdate m u.1 u.2)

theorem years_applyUpdate_self (m : Manifest) (year : Nat) (data : List Rec) :
    year ∈ (applyUpdate m year data).years := by
  show year ∈ sortedYears (year :: m.years)
  rw [sortedYears, List.mem_insertionSort, List.mem_dedup]
  exact List.mem_cons_self _ _

theorem years_applyUpdate_mono (m : Manifest) (year y : Nat) (data : List Rec)
    (h : y ∈ m.years) : y ∈ (applyUpdate m year data).years := by
  show y ∈ sortedYears (year :: m.years)
  rw [sortedYears, List.mem_insertionSort, List.mem_dedup]
  exact List.mem_cons_of_mem _ h

theorem years_foldl_mono :
    ∀ (us : List (Nat × List Rec)) (m : Manifest) (y : Nat), y ∈ m.years →
      y ∈ (us.foldl (fun m u => applyUpdate m u.1 u.2) m).years := by
  intro us
  induction us with
  | nil => intro m y h; exact h
  | cons u rest ih =>
    intro m y h
    simp only [List.foldl_cons]
    exact ih _ y (years_applyUpdate_mono m u.1 y u.2 h)

theorem years_foldl_complete :
    ∀ (us : List (Nat × List Rec)) (m : Manifest) (u : Nat × List Rec), u ∈ us →
      u.1 ∈ (us.foldl (fun m u => applyUpdate m u.1 u.2) m).years := by
  intro us
  induction us with
  | nil => intro m u h; simp at h
  | cons u0 rest ih =>
    intro m u h
    simp only [List.foldl_cons]
    rcases List.mem_cons.mp h with h' | h'
    · subst h'
      exact years_foldl_mono rest _ u.1 (years_applyUpdate_self m u.1 u.2)
    · exact ih _ u h'

/-- C3: after any sequence of manifest updates, `latestDate` is the maximum
(lexicographic over the zero-padded ISO date strings, ignoring falsy values)
of the dates stored in `latestDateByYear` — it is attained by some stored
entry and dominates every stored entry — and `years` contains every year
ever written. -/
theorem C3_manifest_invariant (updates : List (Nat × List Rec)) :
    (∀ d, (runUpdates updates).latestDate = some d →
      (∃ y, (y, some d) ∈ (runUpdates updates).latestDateByYear) ∧
      ∀ y v, (y, some v) ∈ (runUpdates updates).latestDateByYear → v ≠ "" →
        codeLe v.data d.data = true) ∧
    ((runUpdates updates).latestDate = none →
      ∀ y v, (y, some v) ∈ (runUpdates updates).latestDateByYear → v = "") ∧
    (∀ u ∈ updates, u.1 ∈ (runUpdates updates).years) := by
  have hinv : latestInv (runUpdates updates) :=
    latestInv_foldl updates emptyManifest latestInv_empty
  refine ⟨?_, hinv.2, ?_⟩
  · intro d hd
    obtain ⟨h1, _, h3⟩ := hinv.1 d hd
    exact ⟨h1, h3⟩
  · intro u hu
    exact years_foldl_complete updates emptyManifest u hu

/-- Witness for C3: after writing year 2024 (last date 2024-01-02) and then
year 2023 (last date 2023-12-31), `latestDate` is 2024-01-02, it is stored
for year 2024, it dominates the 2023 entry, and both years are recorded. -/
theorem C3_manifest_invariant_witness :
    ((∃ y, (y, some "2024-01-02") ∈
        (runUpdates [(2024, [⟨some "2024-01-02", 1⟩]),
          (2023, [⟨some "2023-12-31", 2⟩])]).latestDateByYear) ∧
      ∀ y v, (y, some v) ∈
          (runUpdates [(2024, [⟨some "2024-01-02", 1⟩]),
            (2023, [⟨some "2023-12-31", 2⟩])]).latestDateByYear → v ≠ "" →
        codeLe v.data "2024-01-02".data = true) ∧
    2023 ∈ (runUpdates [(2024, [⟨some "2024-01-02", 1⟩]),
      (2023, [⟨some "2023-12-31", 2⟩])]).years :=
  ⟨(C3_manifest_invariant
      [(2024, [⟨some "2024-01-02", 1⟩]), (2023, [⟨some "2023-12-31", 2⟩])]).1
      "2024-01-02" (by decide),
    (C3_manifest_invariant
      [(2024, [⟨some "2024-01-02", 1⟩]), (2023, [⟨some "2023-12-31", 2⟩])]).2.2
      (2023, [⟨some "2023-12-31", 2⟩]) (by decide)⟩

/-! ### Claim C6: RSI -/

theorem sum_nonneg_eq_zero_iff :
    ∀ (l : List ℚ), (∀ x ∈ l, 0 ≤ x) → (l.sum = 0 ↔ ∀ x ∈ l, x = 0) := by
  intro l
  induction l with
  | nil => intro _; simp
  | cons x t ih =>
    intro h
    have hx : 0 ≤ x := h x (List.mem_cons_self _ _)
    have ht : ∀ y ∈ t, 0 ≤ y := fun y hy => h y (List.mem_cons_of_mem _ hy)
    rw [List.sum_cons, add_eq_zero_iff_of_nonneg hx (List.sum_nonneg ht),
      List.forall_mem_cons, ih ht]

theorem gainSum_nonneg (w : List ℚ) :
    0 ≤ (w.map (fun d => max d 0)).sum :=
  List.sum_nonneg (by
    intro x hx
    rcases List.mem_map.mp hx with ⟨d, _, rfl⟩
    exact le_max_right d 0)

theorem lossSum_nonneg (w : List ℚ) :
    0 ≤ (w.map (fun d => max (-d) 0)).sum :=
  List.sum_nonneg (by
    intro x hx
    rcases List.mem_map.mp hx with ⟨d, _, rfl⟩
    exact le_max_right (-d) 0)

theorem rsi_formula_bounds {g l : ℚ} (hg : 0 ≤ g) (hl : 0 < l) :
    0 ≤ 100 - 100 / (1 + g / l) ∧ 100 - 100 / (1 + g / l) ≤ 100 := by
  have hrs : 0 ≤ g / l := div_nonneg hg hl.le
  have h1 : (1:ℚ) ≤ 1 + g / l := by linarith
  have h2 : 100 / (1 + g / l) ≤ 100 := div_le_self (by norm_num) h1
  have h3 : 0 < 100 / (1 + g / l) := div_pos (by norm_num) (by linarith)
  constructor <;> linarith

theorem rsiLast_bounds {closes : List ℚ} {r : ℚ}
    (h : rsiLast 14 closes = some r) : 0 ≤ r ∧ r ≤ 100 := by
  simp only [rsiLast, Nat.cast_ofNat] at h
  by_cases h1 : (deltas closes).length < 14
  · rw [if_pos h1] at h
    exact absurd h (by simp)
  rw [if_neg h1] at h
  by_cases h2 : ((lastN 14 (deltas closes)).map (fun d => max (-d) 0)).sum / (14:ℚ) = 0
  · rw [if_pos h2] at h
    by_cases h3 : ((lastN 14 (deltas closes)).map (fun d => max d 0)).sum / (14:ℚ) = 0
    · rw [if_pos h3] at h
      exact absurd h (by simp)
    · rw [if_neg h3] at h
      have hr := Option.some.inj h
      subst hr
      norm_num
  · rw [if_neg h2] at h
    have hG0 : 0 ≤ ((lastN 14 (deltas closes)).map (fun d => max d 0)).sum / (14:ℚ) :=
      div_nonneg (gainSum_nonneg _) (by norm_num)
    have hL0 : 0 < ((lastN 14 (deltas closes)).map (fun d => max (-d) 0)).sum / (14:ℚ) :=
      lt_of_le_of_ne (div_nonneg (lossSum_nonneg _) (by norm_num)) (Ne.symm h2)
    have hb := rsi_formula_bounds hG0 hL0
    have hr := Option.some.inj h
    subst hr
    exact hb

theorem window_sums_zero_iff (w : List ℚ) :
    ((w.map (fun d => max d 0)).sum / (14:ℚ) = 0 ∧
      (w.map (fun d => max (-d) 0)).sum / (14:ℚ) = 0) ↔ ∀ d ∈ w, d = 0 := by
  have h14 : (14:ℚ) ≠ 0 := by norm_num
  rw [div_eq_zero_iff, div_eq_zero_iff]
  simp only [h14, or_false]
  rw [sum_nonneg_eq_zero_iff _ (by
      intro x hx
      rcases List.mem_map.mp hx with ⟨d, _, rfl⟩
      exact le_max_right d 0),
    sum_nonneg_eq_zero_iff _ (by
      intro x hx
      rcases List.mem_map.mp hx with ⟨d, _, rfl⟩
      exact le_max_right (-d) 0)]
  constructor
  · intro ⟨hgain, hloss⟩ d hd
    have h1 : max d 0 = 0 := hgain _ (List.mem_map.mpr ⟨d, hd, rfl⟩)
    have h2 : max (-d) 0 = 0 := hloss _ (List.mem_map.mpr ⟨d, hd, rfl⟩)
    have hd1 : d ≤ 0 := max_eq_right_iff.mp h1
    have hd2 : 0 ≤ d := by
      have := max_eq_right_iff.mp h2
      linarith
    exact le_antisymm hd1 hd2
  · intro hall
    constructor
    · intro x hx
      rcases List.mem_map.mp hx with ⟨d, hd, rfl⟩
      rw [hall d hd]
      simp
    · intro x hx
      rcases List.mem_map.mp hx with ⟨d, hd, rfl⟩
      rw [hall d hd]
      simp

theorem rsiLast_none_iff {closes : List ℚ}
    (h14 : 14 ≤ (deltas closes).length) :
    rsiLast 14 closes = none ↔ ∀ d ∈ lastN 14 (deltas closes), d = 0 := by
  simp only [rsiLast]
  rw [if_neg (by omega)]
  split_ifs with h2 h3
  · constructor
    · intro _
      exact (window_sums_zero_iff _).mp ⟨h3, h2⟩
    · intro _; rfl
  · constructor
    · intro h; exact absurd h (by simp)
    · intro hall
      exact absurd ((window_sums_zero_iff _).mpr hall).1 h3
  · constructor
    · intro h; exact absurd h (by simp)
    · intro hall
      exact absurd ((window_sums_zero_iff _).mpr hall).2 h2

theorem rsiLast_100 {closes : List ℚ}
    (h14 : 14 ≤ (deltas closes).length)
    (hnn : ∀ d ∈ lastN 14 (deltas closes), 0 ≤ d)
    (hex : ∃ d ∈ lastN 14 (deltas closes), 0 < d) :
    rsiLast 14 closes = some 100 := by
  simp only [rsiLast, Nat.cast_ofNat]
  rw [if_neg (show ¬ (deltas closes).length < 14 by omega)]
  have hloss : ((lastN 14 (deltas closes)).map (fun d => max (-d) 0)).sum / (14:ℚ) = 0 := by
    have hz : ((lastN 14 (deltas closes)).map (fun d => max (-d) 0)).sum = 0 := by
      rw [sum_nonneg_eq_zero_iff _ (by
        intro x hx
        rcases List.mem_map.mp hx with ⟨d, _, rfl⟩
        exact le_max_right (-d) 0)]
      intro x hx
      rcases List.mem_map.mp hx with ⟨d, hd, rfl⟩
      have : -d ≤ 0 := neg_nonpos.mpr (hnn d hd)
      exact max_eq_right this
    rw [hz, zero_div]
  have hgain : ((lastN 14 (deltas closes)).map (fun d => max d 0)).sum / (14:ℚ) ≠ 0 := by
    obtain ⟨d0, hd0, hd0pos⟩ := hex
    have hmem : max d0 0 ∈ (lastN 14 (deltas closes)).map (fun d => max d 0) :=
      List.mem_map.mpr ⟨d0, hd0, rfl⟩
    have hle : max d0 0 ≤ ((lastN 14 (deltas closes)).map (fun d => max d 0)).sum :=
      List.single_le_sum (by
        intro x hx
        rcases List.mem_map.mp hx with ⟨d, _, rfl⟩
        exact le_max_right d 0) _ hmem
    have hpos : 0 < ((lastN 14 (deltas closes)).map (fun d => max d 0)).sum :=
      lt_of_lt_of_le (lt_max_of_lt_left hd0pos) hle
    positivity
  rw [if_pos hloss, if_neg hgain]

theorem deltas_replicate (n : Nat) (c : ℚ) :
    deltas (List.replicate n c) = List.replicate (n - 1) 0 := by
  rw [deltas, List.tail_replicate, List.zipWith_replicate, sub_self]
  congr 1
  omega

/-- C6 counterexample: a constant series of 15 closes has 14 valid deltas,
yet its RSI is NaN (0/0), hence absent — refuting "RSI is absent only when
fewer than 14 deltas exist" and "zero average loss yields RSI = 100". -/
theorem C6_counterexample_constant_series :
    rsiLast 14 (List.replicate 15 (100:ℚ)) = none ∧
    (deltas (List.replicate 15 (100:ℚ))).length = 14 := by
  have hd : deltas (List.replicate 15 (100:ℚ)) = List.replicate 14 0 :=
    deltas_replicate 15 100
  constructor
  · rw [rsiLast_none_iff (by rw [hd]; simp)]
    intro d hdm
    rw [hd] at hdm
    have : lastN 14 (List.replicate 14 (0:ℚ)) = List.replicate 14 0 := by
      rw [lastN, List.drop_replicate]
      simp
    rw [this] at hdm
    exact (List.mem_replicate.mp hdm).2
  · rw [hd]; simp

/-- C6 amended: whenever the RSI at the last position is defined it lies in
[0, 100]; with at least 14 deltas it is absent exactly when the trailing
14-window consists entirely of zero deltas (the float 0/0 NaN case); and a
window with no losses but some gain yields exactly 100 (the positive/0 = +inf
case). -/
theorem C6_rsi_range_and_absence :
    (∀ (closes : List ℚ) (r : ℚ), rsiLast 14 closes = some r →
      0 ≤ r ∧ r ≤ 100) ∧
    (∀ closes : List ℚ, 14 ≤ (deltas closes).length →
      (rsiLast 14 closes = none ↔ ∀ d ∈ lastN 14 (deltas closes), d = 0)) ∧
    (∀ closes : List ℚ, 14 ≤ (deltas closes).length →
      (∀ d ∈ lastN 14 (deltas closes), 0 ≤ d) →
      (∃ d ∈ lastN 14 (deltas closes), 0 < d) →
      rsiLast 14 closes = some 100) :=
  ⟨fun _ _ h => rsiLast_bounds h,
    fun _ h => rsiLast_none_iff h,
    fun _ h hnn hex => rsiLast_100 h hnn hex⟩

/-- Witness for C6: a 15-point series with thirteen flat deltas and one gain
has RSI exactly 100, which lies in [0, 100]. -/
theorem C6_rsi_range_and_absence_witness :
    rsiLast 14 ([1,1,1,1,1,1,1,1,1,1,1,1,1,1,2] : List ℚ) = some 100 ∧
    (0 ≤ (100:ℚ) ∧ (100:ℚ) ≤ 100) := by
  have hdelta : deltas ([1,1,1,1,1,1,1,1,1,1,1,1,1,1,2] : List ℚ) =
      [0,0,0,0,0,0,0,0,0,0,0,0,0,1] := by
    norm_num [deltas]
  have hwin : lastN 14 (deltas ([1,1,1,1,1,1,1,1,1,1,1,1,1,1,2] : List ℚ)) =
      [0,0,0,0,0,0,0,0,0,0,0,0,0,1] := by
    rw [hdelta, lastN]
    norm_num
  have hlen : 14 ≤ (deltas ([1,1,1,1,1,1,1,1,1,1,1,1,1,1,2] : List ℚ)).length := by
    rw [hdelta]; norm_num
  have h100 := C6_rsi_range_and_absence.2.2
    ([1,1,1,1,1,1,1,1,1,1,1,1,1,1,2] : List ℚ) hlen
    (by
      rw [hwin]
      intro d hd
      simp at hd
      rcases hd with h | h <;> rw [h] <;> norm_num)
    (by
      rw [hwin]
      exact ⟨1, by simp, by norm_num⟩)
  exact ⟨h100, C6_rsi_range_and_absence.1 _ 100 h100⟩

/-! ### Claim C5: the 200-point threshold and ma_200 -/

theorem alignedAt_zero {df : List (Option ℚ)} {c : ℚ}
    (h : df.getLast? = some (some c)) (f : List ℚ → Option ℚ) :
    alignedAt df 0 f = f (df.filterMap id) := by
  simp only [alignedAt, Nat.sub_zero, List.take_length]
  rw [h]

theorem alignedAt_zero_none {df : List (Option ℚ)}
    (h : df.getLast? = some none) (f : List ℚ → Option ℚ) :
    alignedAt df 0 f = none := by
  simp only [alignedAt, Nat.sub_zero, List.take_length]
  rw [h]

theorem computeFeatures_eq_some {df : List (Option ℚ)}
    (h1 : ¬ df.isEmpty = true) (h2 : ¬ (df.filterMap id).length < 200) :
    computeFeatures df = some
      { latest_close := df.getLast?.bind id
        return_1d := alignedAt df 0 return1dLast
        ma_20 := alignedAt df 0 (maLast 20)
        ma_50 := alignedAt df 0 (maLast 50)
        ma_200 := alignedAt df 0 (maLast 200)
        rsi := alignedAt df 0 (rsiLast 14)
        macd := alignedAt df 0 (fun c => (macdLine c).getLast?)
        macd_signal := alignedAt df 0 (fun c => (macdSignalLine c).getLast?)
        macd_hist := alignedAt df 0 (fun c => (macdHistLine c).getLast?)
        trend := computeTrend (df.filterMap id)
        ma_signal := maSignal df
        rsi_signal := rsiSignalOf (alignedAt df 0 (rsiLast 14)) } := by
  simp only [computeFeatures]
  rw [if_neg h1, if_neg h2]

theorem computeFeatures_none {df : List (Option ℚ)}
    (h : (df.filterMap id).length < 200) : computeFeatures df = none := by
  simp only [computeFeatures]
  by_cases h1 : df.isEmpty = true
  · rw [if_pos h1]
  · rw [if_neg h1, if_pos h]

theorem filterMap_id_replicate_some :
    ∀ (n : Nat) (c : ℚ), (List.replicate n (some c)).filterMap id = List.replicate n c := by
  intro n c
  induction n with
  | zero => rfl
  | succ m ih => simp [List.replicate_succ, List.filterMap_cons, ih]

theorem getLast?_replicate (n : Nat) (a : Option ℚ) (h : n ≠ 0) :
    (List.replicate n a).getLast? = some a := by
  cases n with
  | zero => omega
  | succ m => rw [List.replicate_succ', List.getLast?_concat]

set_option maxRecDepth 8000 in
/-- C5 counterexample: a frame of 200 valid closes followed by one missing
close has exactly 200 valid closes, so `_compute_features` returns a
non-empty snapshot — but its `ma_200` is None, because pandas aligns every
derived series to the last row, whose Close is NaN. -/
theorem C5_counterexample_trailing_nan :
    ((List.replicate 200 (some (1:ℚ)) ++ [none]).filterMap id).length = 200 ∧
    (computeFeatures (List.replicate 200 (some (1:ℚ)) ++ [none])).isSome = true ∧
    (computeFeatures (List.replicate 200 (some (1:ℚ)) ++ [none])).map
      Snapshot.ma_200 = some none := by
  have hfm : (List.replicate 200 (some (1:ℚ)) ++ [none]).filterMap id =
      List.replicate 200 1 := by
    rw [List.filterMap_append, filterMap_id_replicate_some]
    simp
  have hlast : (List.replicate 200 (some (1:ℚ)) ++ [none]).getLast? = some none :=
    List.getLast?_concat _
  have hlen : ((List.replicate 200 (some (1:ℚ)) ++ [none]).filterMap id).length = 200 := by
    rw [hfm, List.length_replicate]
  have hlen' : (List.replicate 200 (some (1:ℚ)) ++ [none]).length = 201 := by
    rw [List.length_append, List.length_replicate]
    rfl
  have hne : ¬ (List.replicate 200 (some (1:ℚ)) ++ [none]).isEmpty = true := by
    intro hc
    rw [List.isEmpty_iff] at hc
    rw [hc] at hlen'
    simp at hlen'
  have hcf := computeFeatures_eq_some hne (by omega)
  refine ⟨hlen, ?_, ?_⟩
  · rw [hcf]
    exact Option.isSome_some
  · rw [hcf, Option.map_some']
    show some (alignedAt (List.replicate 200 (some (1:ℚ)) ++ [none]) 0 (maLast 200)) =
      some none
    rw [alignedAt_zero_none hlast]

/-- C5 amended: with fewer than 200 valid closes `_compute_features` returns
the empty result; with exactly 200 valid closes *and a valid final close*
it returns a non-empty snapshot whose `ma_200` is the mean of all 200 valid
closes.  (Without the valid-final-close condition the snapshot is non-empty
but `ma_200` is None — see the counterexample.) -/
theorem C5_min_points :
    (∀ df : List (Option ℚ), (df.filterMap id).length < 200 →
      computeFeatures df = none) ∧
    (∀ (df : List (Option ℚ)) (c : ℚ), (df.filterMap id).length = 200 →
      df.getLast? = some (some c) →
      ∃ s, computeFeatures df = some s ∧
        s.ma_200 = some ((df.filterMap id).sum / 200)) := by
  constructor
  · intro df h
    exact computeFeatures_none h
  · intro df c hlen hlast
    have hne : ¬ df.isEmpty = true := by
      intro hc
      rw [List.isEmpty_iff] at hc
      rw [hc] at hlast
      simp at hlast
    refine ⟨_, computeFeatures_eq_some hne (by omega), ?_⟩
    show alignedAt df 0 (maLast 200) = _
    rw [alignedAt_zero hlast]
    rw [maLast, if_neg (by omega)]
    have hdrop : lastN 200 (df.filterMap id) = df.filterMap id := by
      rw [lastN, hlen]
      simp
    rw [hdrop]
    norm_num

/-- Witness for C5: a frame of exactly 200 valid constant closes produces a
non-empty snapshot whose ma_200 is the mean of the 200 closes. -/
theorem C5_min_points_witness :
    ∃ s, computeFeatures (List.replicate 200 (some (1:ℚ))) = some s ∧
      s.ma_200 = some (((List.replicate 200 (some (1:ℚ))).filterMap id).sum / 200) :=
  C5_min_points.2 (List.replicate 200 (some (1:ℚ))) 1
    (by rw [filterMap_id_replicate_some, List.length_replicate])
    (getLast?_replicate 200 (some 1) (by norm_num))

/-! ### Claim C8: trend classification -/

theorem lastN_of_length {l : List ℚ} {n : Nat} (h : l.length = n) :
    lastN n l = l := by
  rw [lastN, h, Nat.sub_self, List.drop_zero]

theorem allEqHead_false_of_lt {a b : ℚ} (t : List ℚ) (h : a < b) :
    allEqHead (a :: b :: t) = false := by
  have hb : (b == a) = false := beq_eq_false_iff_ne.mpr (ne_of_gt h)
  simp [allEqHead, List.all_cons, hb]

theorem allEqHead_replicate (n : Nat) (c : ℚ) :
    allEqHead (List.replicate n c) = true := by
  cases n with
  | zero => rfl
  | succ m =>
    rw [List.replicate_succ]
    simp [allEqHead, List.all_eq_true, List.mem_replicate]

theorem computeTrend_unknown {closes : List ℚ} (h : closes.length < 10) :
    computeTrend closes = "unknown" := by
  simp only [computeTrend]
  rw [if_pos h]

theorem computeTrend_flat_allEq {closes : List ℚ} (h10 : 10 ≤ closes.length)
    (heq : allEqHead (lastN 10 closes) = true) : computeTrend closes = "flat" := by
  simp only [computeTrend]
  rw [if_neg (by omega), if_pos heq]

theorem computeTrend_up {closes : List ℚ} (h10 : 10 ≤ closes.length)
    (hneq : allEqHead (lastN 10 closes) = false)
    (hs : olsSlope (lastN 10 closes) > 1 / 1000) : computeTrend closes = "up" := by
  simp only [computeTrend]
  rw [if_neg (by omega), if_neg (by simp [hneq]), if_pos hs]

theorem computeTrend_down {closes : List ℚ} (h10 : 10 ≤ closes.length)
    (hneq : allEqHead (lastN 10 closes) = false)
    (hs : olsSlope (lastN 10 closes) < -(1 / 1000)) : computeTrend closes = "down" := by
  simp only [computeTrend]
  have hns : ¬ olsSlope (lastN 10 closes) > 1 / 1000 := by
    rw [not_lt]
    have : -(1/1000 : ℚ) ≤ 1/1000 := by norm_num
    linarith
  rw [if_neg (by omega), if_neg (by simp [hneq]), if_neg hns, if_pos hs]

theorem computeTrend_flat_mid {closes : List ℚ} (h10 : 10 ≤ closes.length)
    (hneq : allEqHead (lastN 10 closes) = false)
    (hs1 : olsSlope (lastN 10 closes) ≤ 1 / 1000)
    (hs2 : -(1 / 1000) ≤ olsSlope (lastN 10 closes)) : computeTrend closes = "flat" := by
  simp only [computeTrend]
  rw [if_neg (by omega), if_neg (by simp [hneq]), if_neg (not_lt.mpr hs1),
    if_neg (not_lt.mpr hs2)]

/-- C8: the trend block classifies the last 10 closes by OLS slope with the
0.001 threshold: slope above it gives "up" (in particular for 10 strictly
increasing closes), below its negation "down", otherwise "flat"; 10
numerically identical last closes skip the regression and give "flat"; and
with fewer than 10 closes the initial "unknown" fallback survives — no
branch can raise a singular-fit error. -/
theorem C8_trend_rules :
    (∀ closes : List ℚ, closes.length < 10 → computeTrend closes = "unknown") ∧
    (∀ closes : List ℚ, 10 ≤ closes.length → allEqHead (lastN 10 closes) = true →
      computeTrend closes = "flat") ∧
    (∀ closes : List ℚ, closes.length = 10 → List.Chain' (· < ·) closes →
      olsSlope closes > 1 / 1000 → computeTrend closes = "up") ∧
    (∀ closes : List ℚ, 10 ≤ closes.length → allEqHead (lastN 10 closes) = false →
      olsSlope (lastN 10 closes) < -(1 / 1000) → computeTrend closes = "down") ∧
    (∀ closes : List ℚ, 10 ≤ closes.length → allEqHead (lastN 10 closes) = false →
      olsSlope (lastN 10 closes) ≤ 1 / 1000 → -(1 / 1000) ≤ olsSlope (lastN 10 closes) →
      computeTrend closes = "flat") := by
  refine ⟨fun _ h => computeTrend_unknown h,
    fun _ h10 heq => computeTrend_flat_allEq h10 heq, ?_,
    fun _ h10 hneq hs => computeTrend_down h10 hneq hs,
    fun _ h10 hneq hs1 hs2 => computeTrend_flat_mid h10 hneq hs1 hs2⟩
  intro closes hlen hchain hs
  have hN : lastN 10 closes = closes := lastN_of_length hlen
  rcases closes with _ | ⟨a, _ | ⟨b, t⟩⟩
  · simp at hlen
  · simp at hlen
  · have hab : a < b := (List.chain'_cons.mp hchain).1
    exact computeTrend_up (by omega) (by rw [hN]; exact allEqHead_false_of_lt t hab)
      (by rw [hN]; exact hs)

/-- Witness for C8: the strictly increasing series 1..10 has OLS slope 1 and
is classified "up"; a 3-point series is "unknown"; ten identical closes are
"flat". -/
theorem C8_trend_rules_witness :
    computeTrend ([1,2,3,4,5,6,7,8,9,10] : List ℚ) = "up" ∧
    computeTrend ([5,5,5] : List ℚ) = "unknown" ∧
    computeTrend (List.replicate 10 (7:ℚ)) = "flat" := by
  have hr : List.range 10 = [0,1,2,3,4,5,6,7,8,9] := rfl
  have hslope : olsSlope ([1,2,3,4,5,6,7,8,9,10] : List ℚ) = 1 := by
    simp only [olsSlope]
    rw [show ([1,2,3,4,5,6,7,8,9,10] : List ℚ).length = 10 from rfl, hr]
    norm_num [List.zipWith_cons_cons]
  refine ⟨?_, ?_, ?_⟩
  · exact C8_trend_rules.2.2.1 _ rfl
      (by simp only [List.chain'_cons, List.chain'_singleton, and_true]; norm_num)
      (by rw [hslope]; norm_num)
  · exact C8_trend_rules.1 _ (by simp)
  · exact C8_trend_rules.2.1 _ (by simp)
      (by rw [lastN_of_length (by simp)]; exact allEqHead_replicate 10 7)

/-! ### Claim C10: trend in a non-empty snapshot -/

theorem computeTrend_mem {closes : List ℚ} (h : 10 ≤ closes.length) :
    computeTrend closes = "up" ∨ computeTrend closes = "down" ∨
      computeTrend closes = "flat" := by
  simp only [computeTrend]
  rw [if_neg (by omega)]
  split_ifs <;> simp

/-- C10: every non-empty feature snapshot carries a trend in
{"up", "down", "flat"} — the "unknown" fallback is unreachable because a
non-empty snapshot requires at least 200 valid closes, which satisfies the
10-point minimum of the trend regression. -/
theorem C10_trend_always_classified :
    ∀ (df : List (Option ℚ)) (s : Snapshot), computeFeatures df = some s →
      s.trend = "up" ∨ s.trend = "down" ∨ s.trend = "flat" := by
  intro df s h
  simp only [computeFeatures] at h
  by_cases h1 : df.isEmpty = true
  · rw [if_pos h1] at h
    exact absurd h (by simp)
  rw [if_neg h1] at h
  by_cases h2 : (df.filterMap id).length < 200
  · rw [if_pos h2] at h
    exact absurd h (by simp)
  rw [if_neg h2] at h
  have hs := Option.some.inj h
  have htrend : s.trend = computeTrend (df.filterMap id) := by rw [← hs]
  rw [htrend]
  exact computeTrend_mem (by omega)

set_option maxRecDepth 8000 in
/-- Witness for C10: the 200-point constant frame yields a non-empty
snapshot, and its trend is classified (here "flat"). -/
theorem C10_trend_always_classified_witness :
    computeTrend (List.filterMap id (List.replicate 200 (some (1:ℚ)))) = "up" ∨
    computeTrend (List.filterMap id (List.replicate 200 (some (1:ℚ)))) = "down" ∨
    computeTrend (List.filterMap id (List.replicate 200 (some (1:ℚ)))) = "flat" := by
  have hne : ¬ (List.replicate 200 (some (1:ℚ))).isEmpty = true := by
    rw [List.isEmpty_iff, List.replicate_eq_nil]
    norm_num
  have hlen : ¬ ((List.replicate 200 (some (1:ℚ))).filterMap id).length < 200 := by
    rw [filterMap_id_replicate_some, List.length_replicate]
    omega
  exact C10_trend_always_classified _ _ (computeFeatures_eq_some hne hlen)
